import Mathlib

/-
Shallow embedding of the core of the nia feed reader (Rust) and proofs
about it.

Scope of the embedding:
  - src/config.rs   : Post, PostId, Posts (the sorted post collection)
  - src/database.rs : key encoding, save_posts, load_feed over a model of
                      the sled key-value tree
  - src/download.rs : the per-worker download loop, RSS extraction and the
                      FNV hash
  - src/lib.rs      : the public FNV hash

Modelling conventions:
  - Rust str / String values are modelled as their UTF-8 byte lists
    (List Nat), so byte-level operations (as_bytes, key building, the FNV
    hash) are direct.
  - chrono DateTime<Utc> values are modelled as Int timestamps (seconds,
    the granularity the persistence layer stores via dt.timestamp()).
  - u64 arithmetic is modelled as Nat with explicit reduction mod 2^64
    where Rust wraps.
  - External library calls (HTTP fetch, Atom/RSS parsing, date parsing,
    link detection, current time) are oracle parameters of the functions
    that use them, gathered in small environment structures.
-/

namespace Nia

/-- Rust string values are modelled as their UTF-8 byte lists. -/
abbrev Str : Type := List Nat

/-- A single post in a feed (struct Post in config.rs).  The PostId newtype
is inlined as its underlying string. -/
structure Post where
  id : Str
  title : Str
  urls : List Str
  published : Int
  read : Bool
deriving DecidableEq, Repr, Inhabited

/-- impl Ord for Post in config.rs: comparison is by published only. -/
def Post.cmp (a b : Post) : Ordering :=
  compare a.published b.published

/-- The loop of Rust core slice binary_search_by: left/right bounds,
mid = left + size / 2, narrowing on Less/Greater, Ok(mid) on Equal,
Err(left) when the range is empty.  The fuel argument makes the recursion
structural: every iteration of the Rust loop strictly shrinks
right - left, so as long as fuel is at least right - left the fuel never
runs out before the loop would exit, and when fuel is zero under that
invariant we have left at or above right so Err(left) is exactly what the
Rust loop returns as well.  Out-of-range reads never happen when right is
at most the list length; getD supplies a default for totality. -/
def bsLoop {α : Type} [Inhabited α] (f : α → Ordering) (xs : List α) :
    Nat → Nat → Nat → Except Nat Nat
  | 0, left, _right => .error left
  | fuel + 1, left, right =>
    if left < right then
      match f (xs.getD (left + (right - left) / 2) default) with
      | .lt => bsLoop f xs fuel (left + (right - left) / 2 + 1) right
      | .gt => bsLoop f xs fuel left (left + (right - left) / 2)
      | .eq => .ok (left + (right - left) / 2)
    else
      .error left

/-- Rust slice::binary_search_by over the whole list.  The list length is
enough fuel because the width right - left starts there and shrinks by at
least one per iteration. -/
def binarySearchBy {α : Type} [Inhabited α] (f : α → Ordering)
    (xs : List α) : Except Nat Nat :=
  bsLoop f xs xs.length 0 xs.length

/-- struct Posts in config.rs: the inner vector and the tracked unread
count. -/
structure Posts where
  inner : List Post
  unread : Nat
deriving DecidableEq, Repr

/-- One step of insertion sort: place a in front of the first element it
may precede under le. -/
def insSorted {α : Type} (le : α → α → Bool) (a : α) : List α → List α
  | [] => [a]
  | b :: l => if le a b then a :: b :: l else b :: insSorted le a l

/-- Insertion sort.  Rust Vec::sort_unstable_by promises a permutation of
the input ordered by the comparator, with no guarantee on the relative
order of elements that compare equal; this sort realizes exactly that
contract. -/
def sortBy {α : Type} (le : α → α → Bool) : List α → List α
  | [] => []
  | a :: l => insSorted le a (sortBy le l)

/-- The comparator of impl From<Vec<Post>> for Posts:
a.published.cmp(b.published).reverse(), i.e. published descending. -/
def descByPublished (a b : Post) : Bool :=
  decide (b.published ≤ a.published)

/-- impl From<Vec<Post>> for Posts: sort by published descending, count
the unread posts. -/
def Posts.fromList (v : List Post) : Posts :=
  let sorted := sortBy descByPublished v
  { inner := sorted
    unread := sorted.countP (fun p => !p.read) }

/-- impl From<Post> for Posts. -/
def Posts.fromPost (post : Post) : Posts :=
  { unread := if post.read then 0 else 1
    inner := [post] }

/-- Posts::new. -/
def Posts.new : Posts :=
  { inner := [], unread := 0 }

/-- Posts::insert: binary search with the reversed Post order (published
descending), unwrap_or_else on the Err index, bump unread if the new post
is unread, Vec::insert at the found index. -/
def Posts.insert (ps : Posts) (post : Post) : Posts :=
  let idx :=
    match binarySearchBy (fun p => (Post.cmp p post).swap) ps.inner with
    | .ok i => i
    | .error i => i
  { inner := ps.inner.insertIdx idx post
    unread := if post.read then ps.unread else ps.unread + 1 }

/-- The index Posts::insert inserts at. -/
def insertIdxOf (ps : Posts) (post : Post) : Nat :=
  match binarySearchBy (fun p => (Post.cmp p post).swap) ps.inner with
  | .ok i => i
  | .error i => i

/-- Posts::contains: binary search with the reversed Post order, is_ok. -/
def Posts.contains (ps : Posts) (post : Post) : Bool :=
  match binarySearchBy (fun p => (Post.cmp p post).swap) ps.inner with
  | .ok _ => true
  | .error _ => false

/-- Posts::append: insert every post of the other collection. -/
def Posts.append (ps : Posts) (other : Posts) : Posts :=
  other.inner.foldl (fun acc post => acc.insert post) ps

/-- Posts::len. -/
def Posts.len (ps : Posts) : Nat :=
  ps.inner.length

/-- The traversal made by Vec::retain in Posts::retain: keep elements
satisfying f, decrement the running unread count for every removed post
whose read flag is false. -/
def retainLoop (f : Post → Bool) : List Post → Nat → List Post × Nat
  | [], unread => ([], unread)
  | p :: rest, unread =>
    if f p then
      let r := retainLoop f rest unread
      (p :: r.1, r.2)
    else
      retainLoop f rest (if p.read then unread else unread - 1)

/-- Posts::retain. -/
def Posts.retain (ps : Posts) (f : Post → Bool) : Posts :=
  let r := retainLoop f ps.inner ps.unread
  { inner := r.1, unread := r.2 }

/-- Posts::get_by_id_mut locates the first post with the given id;
mark_read and toggle_read mutate that post.  This models the lookup. -/
def Posts.findIdxById (ps : Posts) (post_id : Str) : Option Nat :=
  ps.inner.findIdx? (fun p => p.id == post_id)

/-- Posts::mark_read: no-op when the id is absent or the flag already has
the requested value; otherwise set the flag and adjust unread. -/
def Posts.mark_read (ps : Posts) (post_id : Str) (read : Bool) : Posts :=
  match ps.findIdxById post_id with
  | none => ps
  | some i =>
    let p := ps.inner.getD i default
    if p.read == read then ps
    else
      { inner := ps.inner.set i { p with read := read }
        unread := if read then ps.unread - 1 else ps.unread + 1 }

/-- Posts::toggle_read: flip the flag of the first post with the given id
and adjust unread in the direction of the new flag value. -/
def Posts.toggle_read (ps : Posts) (post_id : Str) : Posts :=
  match ps.findIdxById post_id with
  | none => ps
  | some i =>
    let p := ps.inner.getD i default
    { inner := ps.inner.set i { p with read := !p.read }
      unread := if !p.read then ps.unread - 1 else ps.unread + 1 }

/-- Posts::get_by_id: first post with the given id. -/
def Posts.get_by_id (ps : Posts) (post_id : Str) : Option Post :=
  ps.inner.find? (fun p => p.id == post_id)

/-! The persisted store (src/database.rs).

The sled tree is modelled as an association list of key/value byte
strings; Tree::insert is an upsert by key and scan_prefix filters by
byte prefix.  Post values are serialized with postcard, whose wire
format for this Post profile is: varint-length-prefixed id bytes, the
same for the title, a varint count of urls followed by the
length-prefixed url strings, the published timestamp as a
zigzag-encoded varint (the serde adapter stores dt.timestamp(), i64
seconds), and one byte for the read flag. -/

/-- Unsigned LEB128 varint emission.  The fuel argument (first) makes the
recursion structural; the initial fuel n is enough because the value
shrinks by a factor of 128 every step, and whenever fuel reaches zero the
remaining value is below 128 so the fallback emits the same byte the loop
would. -/
def ulebGo : Nat → Nat → Str
  | 0, n => [n]
  | fuel + 1, n =>
    if n < 128 then [n] else (n % 128 + 128) :: ulebGo fuel (n / 128)

/-- Unsigned LEB128 varint of n. -/
def uleb (n : Nat) : Str :=
  ulebGo n n

/-- Parse an unsigned LEB128 varint, returning the value and the rest of
the input. -/
def parseUleb : Str → Option (Nat × Str)
  | [] => none
  | b :: rest =>
    if b < 128 then some (b, rest)
    else
      match parseUleb rest with
      | none => none
      | some (n, r) => some (n * 128 + (b - 128), r)

/-- A length-prefixed byte string, as postcard encodes str values. -/
def encBytes (s : Str) : Str :=
  uleb s.length ++ s

/-- Parse a length-prefixed byte string. -/
def parseBytes (bytes : Str) : Option (Str × Str) :=
  match parseUleb bytes with
  | none => none
  | some (n, r) => if n ≤ r.length then some (r.take n, r.drop n) else none

/-- Zigzag encoding of a signed integer, as postcard encodes i64. -/
def zigzag (i : Int) : Nat :=
  if 0 ≤ i then (2 * i).toNat else (-(2 * i) - 1).toNat

/-- Inverse of the zigzag encoding. -/
def unzigzag (n : Nat) : Int :=
  if n % 2 = 0 then ((n / 2 : Nat) : Int) else -(((n + 1) / 2 : Nat) : Int)

/-- postcard::to_stdvec(&post): the five fields in declaration order. -/
def encodePost (p : Post) : Str :=
  encBytes p.id ++ encBytes p.title ++
    uleb p.urls.length ++ (p.urls.map encBytes).flatten ++
    uleb (zigzag p.published) ++ [if p.read then 1 else 0]

/-- Parse a counted sequence of length-prefixed strings. -/
def parseUrls : Nat → Str → Option (List Str × Str)
  | 0, bytes => some ([], bytes)
  | n + 1, bytes =>
    match parseBytes bytes with
    | none => none
    | some (u, r) =>
      match parseUrls n r with
      | none => none
      | some (us, r2) => some (u :: us, r2)

/-- postcard::from_bytes::<Post>: parse the five fields in order; any
malformed field makes the whole value undecodable (load_feed then skips
it via filter_map). -/
def decodePost (bytes : Str) : Option Post :=
  match parseBytes bytes with
  | none => none
  | some (id, r1) =>
    match parseBytes r1 with
    | none => none
    | some (title, r2) =>
      match parseUleb r2 with
      | none => none
      | some (n, r3) =>
        match parseUrls n r3 with
        | none => none
        | some (urls, r4) =>
          match parseUleb r4 with
          | none => none
          | some (z, r5) =>
            match r5 with
            | 0 :: _ =>
              some { id := id, title := title, urls := urls,
                     published := unzigzag z, read := false }
            | 1 :: _ =>
              some { id := id, title := title, urls := urls,
                     published := unzigzag z, read := true }
            | _ => none

/-- The sled posts tree: an association list of key/value byte strings. -/
abbrev Tree : Type := List (Str × Str)

/-- sled Tree::insert: insert-or-replace by key. -/
def treeInsert (t : Tree) (k v : Str) : Tree :=
  if t.any (fun kv => kv.1 == k) then
    t.map (fun kv => if kv.1 == k then (k, v) else kv)
  else
    t ++ [(k, v)]

/-- Database::make_key: feed URL bytes, one 0 separator byte, post id
bytes. -/
def make_key (feed_url : Str) (post : Post) : Str :=
  feed_url ++ [0] ++ post.id

/-- Database::feed_prefix: feed URL bytes followed by the 0 separator. -/
def feedPrefixBytes (feed_url : Str) : Str :=
  feed_url ++ [0]

/-- sled Tree::scan_prefix: all entries whose key starts with the given
byte prefix. -/
def treeScan (t : Tree) (pfx : Str) : List (Str × Str) :=
  t.filter (fun kv => pfx.isPrefixOf kv.1)

/-- Database::save_posts: upsert one entry per post, keyed by
make_key. -/
def save_posts (t : Tree) (feed_url : Str) (posts : Posts) : Tree :=
  posts.inner.foldl
    (fun tr post => treeInsert tr (make_key feed_url post) (encodePost post)) t

/-- Database::load_feed: scan the feed prefix, decode every value that
parses, collect into a Posts (re-sorting and recounting unread). -/
def load_feed (t : Tree) (feed_url : Str) : Posts :=
  Posts.fromList
    ((treeScan t (feedPrefixBytes feed_url)).filterMap
      (fun kv => decodePost kv.2))

/-! The download worker (src/download.rs). -/

/-- Decimal digit emission for u64::to_string, fuel-structural like
ulebGo; initial fuel n suffices. -/
def decimalGo : Nat → Nat → Str
  | 0, n => [48 + n % 10]
  | fuel + 1, n =>
    if n < 10 then [48 + n] else decimalGo fuel (n / 10) ++ [48 + n % 10]

/-- The decimal ASCII rendering of a natural number. -/
def natToDecimal (n : Nat) : Str :=
  decimalGo n n

namespace Lib

/-- The public hash function in src/lib.rs: 64-bit FNV-1a over the UTF-8
bytes of s, rendered in decimal. -/
def hash (s : Str) : Str :=
  natToDecimal
    (s.foldl
      (fun h byte => ((h ^^^ byte) * 0x100000001b3) % (2 ^ 64))
      0xcbf29ce484222325)

end Lib

namespace Download

/-- The private hash function in src/download.rs, textually identical to
the one in src/lib.rs. -/
def hash (s : Str) : Str :=
  natToDecimal
    (s.foldl
      (fun h byte => ((h ^^^ byte) * 0x100000001b3) % (2 ^ 64))
      0xcbf29ce484222325)

end Download

/-- FeedId from src/config.rs. -/
structure FeedId where
  section_idx : Nat
  feed_idx : Nat
deriving DecidableEq, Repr

/-- DownloadResponse from src/download.rs. -/
inductive DownloadResponse where
  | started (feed : FeedId)
  | failed (feed : FeedId)
  | finished (feed : FeedId) (posts : List Post)
deriving DecidableEq, Repr

/-- The feed identity a response is about. -/
def respFeed : DownloadResponse → FeedId
  | .started f => f
  | .failed f => f
  | .finished f _ => f

/-- An atom_syndication entry, reduced to the fields download.rs reads:
id, title value, updated time, link hrefs, content value, summary. -/
structure AtomEntry where
  id : Str
  title : Str
  updated : Int
  links : List Str
  content : Option Str
  summary : Option Str

/-- An atom_syndication feed. -/
structure AtomFeed where
  entries : List AtomEntry

/-- An rss item, reduced to the fields download.rs reads. -/
structure RssItem where
  title : Option Str
  description : Option Str
  pub_date : Option Str
  guid : Option Str
  link : Option Str
  content : Option Str

/-- An rss channel. -/
structure RssChannel where
  items : List RssItem

/-- Oracles for the pure external library calls made during extraction:
Url::parse (producing the normalized URL string or failing), the linkify
link finder, chrono rfc2822 parsing to a UTC timestamp, Utc::now() and
the Debug rendering used in format!, which is a fixed deterministic
rendering of the timestamp and title. -/
structure ExtractEnv where
  parseUrl : Str → Option Str
  findLinks : Str → List Str
  parseRfc2822 : Str → Option Int
  now : Int
  debugFormatId : Int → Str → Str

/-- push_url: parse, dedup by exact equality, push. -/
def push_url (env : ExtractEnv) (acc : List Str) (s : Str) : List Str :=
  match env.parseUrl s with
  | none => acc
  | some url => if acc.contains url then acc else acc ++ [url]

/-- extract_urls_from_text: run the link finder and push every hit. -/
def extract_urls_from_text (env : ExtractEnv) (acc : List Str) (s : Str) :
    List Str :=
  (env.findLinks s).foldl (fun a link => push_url env a link) acc

/-- truncate_chars, on the byte-string model. -/
def truncate_chars (s : Str) (n : Nat) : Str :=
  s.take n

/-- The literal "Untitled". -/
def untitledStr : Str :=
  [85, 110, 116, 105, 116, 108, 101, 100]

/-- The name let-binding in the extract_from_rss loop body: title, else
the description truncated to 20 characters, else "Untitled". -/
def rssNameOf (item : RssItem) : Str :=
  match item.title with
  | some t => t
  | none =>
    match item.description with
    | some d => truncate_chars d 20
    | none => untitledStr

/-- The published let-binding in the extract_from_rss loop body: the
parsed pub_date if present and parseable, otherwise Utc::now(). -/
def rssPublishedOf (env : ExtractEnv) (item : RssItem) : Int :=
  match item.pub_date with
  | some d =>
    match env.parseRfc2822 d with
    | some ts => ts
    | none => env.now
  | none => env.now

/-- The id let-binding in the extract_from_rss loop body: the guid value
whenever a guid is present, otherwise the FNV hash of the Debug rendering
of (published, name). -/
def rssIdOf (env : ExtractEnv) (item : RssItem) : Str :=
  match item.guid with
  | some g => g
  | none =>
    Download.hash (env.debugFormatId (rssPublishedOf env item) (rssNameOf item))

/-- The body of the extract_from_rss loop: build one Post from one item;
all extracted posts are unread. -/
def rss_post_of_item (env : ExtractEnv) (item : RssItem) : Post :=
  let urls0 :=
    match item.link with
    | some l => push_url env [] l
    | none => []
  let urls1 :=
    match item.description with
    | some d => extract_urls_from_text env urls0 d
    | none => urls0
  let urls2 :=
    match item.content with
    | some c => extract_urls_from_text env urls1 c
    | none => urls1
  { id := rssIdOf env item, title := rssNameOf item, urls := urls2,
    published := rssPublishedOf env item, read := false }

/-- extract_from_rss: one Post per item, pushed in order. -/
def extract_from_rss (env : ExtractEnv) (channel : RssChannel) : List Post :=
  channel.items.foldl (fun posts item => posts ++ [rss_post_of_item env item]) []

/-- The body of the extract_from_atom loop. -/
def atom_post_of_entry (env : ExtractEnv) (entry : AtomEntry) : Post :=
  let urls0 := entry.links.foldl (fun a l => push_url env a l) []
  let urls1 :=
    match entry.content with
    | some c => extract_urls_from_text env urls0 c
    | none => urls0
  let urls2 :=
    match entry.summary with
    | some s => extract_urls_from_text env urls1 s
    | none => urls1
  { id := entry.id, title := entry.title, urls := urls2,
    published := entry.updated, read := false }

/-- extract_from_atom: one Post per entry, pushed in order. -/
def extract_from_atom (env : ExtractEnv) (feed : AtomFeed) : List Post :=
  feed.entries.foldl (fun posts entry => posts ++ [atom_post_of_entry env entry]) []

/-- The ascending comparator of the post sort inside the worker loop:
a.published.cmp(b.published). -/
def ascByPublished (a b : Post) : Bool :=
  decide (a.published ≤ b.published)

/-- Oracles for one worker run: the blocking HTTP get (None on transport
error, non-2xx status or body read failure, Some body otherwise) and the
two body parsers. -/
structure WorkerEnv where
  fetch : Str → Option Str
  parseAtom : Str → Option AtomFeed
  parseRss : Str → Option RssChannel
  extractEnv : ExtractEnv

/-- The loop of spawn_feed_downloader: for each assigned feed emit
Started, fetch, emit Failed and continue on failure, otherwise parse as
Atom then RSS (empty post list when neither parses), sort ascending by
published and emit Finished.  The emitted channel messages are modelled
as the returned list, in emission order. -/
def runFeedDownloader (env : WorkerEnv) (feeds : List (FeedId × Str)) :
    List DownloadResponse :=
  feeds.flatMap (fun fu =>
    DownloadResponse.started fu.1 ::
      (match env.fetch fu.2 with
       | none => [DownloadResponse.failed fu.1]
       | some body =>
         [DownloadResponse.finished fu.1
           (sortBy ascByPublished
             (match env.parseAtom body with
              | some atom => extract_from_atom env.extractEnv atom
              | none =>
                match env.parseRss body with
                | some rss => extract_from_rss env.extractEnv rss
                | none => []))]))

/-- A trivial concrete extraction environment for witnesses: nothing
parses as a URL or a date, no links are found, now is zero and the Debug
rendering is the title itself. -/
def trivialEnv : ExtractEnv :=
  { parseUrl := fun _ => none
    findLinks := fun _ => []
    parseRfc2822 := fun _ => none
    now := 0
    debugFormatId := fun _ name => name }

/-- A concrete worker environment where every fetch fails. -/
def failWorkerEnv : WorkerEnv :=
  { fetch := fun _ => none
    parseAtom := fun _ => none
    parseRss := fun _ => none
    extractEnv := trivialEnv }

/-- A concrete worker environment where every fetch succeeds with a body
that parses as neither Atom nor RSS. -/
def stubWorkerEnv : WorkerEnv :=
  { fetch := fun _ => some [60]
    parseAtom := fun _ => none
    parseRss := fun _ => none
    extractEnv := trivialEnv }

/-- A concrete RSS item with a present, non-empty guid, for witnesses. -/
def sampleRssItem : RssItem :=
  { title := some [97]
    description := none
    pub_date := none
    guid := some [103]
    link := none
    content := none }

/-- A concrete RSS item whose guid is present but empty. -/
def emptyGuidRssItem : RssItem :=
  { title := some [97]
    description := none
    pub_date := none
    guid := some []
    link := none
    content := none }

/-! Operation sequences over a Post Collection, for stating the
state invariants. -/

/-- One mutating Post Collection operation. -/
inductive Op where
  | insertOp (post : Post)
  | appendOp (other : Posts)
  | markRead (post_id : Str) (read : Bool)
  | toggleRead (post_id : Str)
  | retainOp (f : Post → Bool)

/-- Apply one operation. -/
def applyOp (ps : Posts) : Op → Posts
  | .insertOp post => ps.insert post
  | .appendOp other => ps.append other
  | .markRead post_id read => ps.mark_read post_id read
  | .toggleRead post_id => ps.toggle_read post_id
  | .retainOp f => ps.retain f

/-! Specification predicates for the Post Collection. -/

/-- Sorted by published descending, the documented invariant of Posts. -/
def sortedDesc (l : List Post) : Prop :=
  l.Pairwise (fun a b => b.published ≤ a.published)

/-- The unread counter invariant: the tracked count equals the number of
contained posts whose read flag is false. -/
def unreadInv (ps : Posts) : Prop :=
  ps.unread = ps.inner.countP (fun p => !p.read)

/-! Helper lemmas about Ordering and the Post comparator. -/

/-- Numeric rank of an Ordering value, for stating monotonicity of a
comparator along a sorted list. -/
def ordRank : Ordering → Nat
  | .lt => 0
  | .eq => 1
  | .gt => 2

theorem swap_eq_lt {o : Ordering} : o.swap = .lt ↔ o = .gt := by
  cases o <;> simp [Ordering.swap]

theorem swap_eq_eq {o : Ordering} : o.swap = .eq ↔ o = .eq := by
  cases o <;> simp [Ordering.swap]

theorem swap_eq_gt {o : Ordering} : o.swap = .gt ↔ o = .lt := by
  cases o <;> simp [Ordering.swap]

theorem ordRank_eq_zero {o : Ordering} : ordRank o = 0 ↔ o = .lt := by
  cases o <;> simp [ordRank]

theorem ordRank_eq_two {o : Ordering} : 2 ≤ ordRank o ↔ o = .gt := by
  cases o <;> simp [ordRank]

theorem cmp_swap_eq_lt {a post : Post} :
    (Post.cmp a post).swap = .lt ↔ post.published < a.published := by
  rw [swap_eq_lt]
  exact compare_gt_iff_gt

theorem cmp_swap_eq_eq {a post : Post} :
    (Post.cmp a post).swap = .eq ↔ a.published = post.published := by
  rw [swap_eq_eq]
  exact compare_eq_iff_eq

theorem cmp_swap_eq_gt {a post : Post} :
    (Post.cmp a post).swap = .gt ↔ a.published < post.published := by
  rw [swap_eq_gt]
  exact compare_lt_iff_lt

theorem rank_swap_mono {post a b : Post} (h : b.published ≤ a.published) :
    ordRank ((Post.cmp a post).swap) ≤ ordRank ((Post.cmp b post).swap) := by
  unfold Post.cmp
  rcases ha : compare a.published post.published with _ | _ | _ <;>
    rcases hb : compare b.published post.published with _ | _ | _ <;>
    simp only [Ordering.swap, ordRank]
  · exact le_refl _
  · exfalso
    have h1 := compare_lt_iff_lt.mp ha
    have h2 := compare_eq_iff_eq.mp hb
    omega
  · exfalso
    have h1 := compare_lt_iff_lt.mp ha
    have h2 := compare_gt_iff_gt.mp hb
    omega
  · omega
  · exact le_refl _
  · exfalso
    have h1 := compare_eq_iff_eq.mp ha
    have h2 := compare_gt_iff_gt.mp hb
    omega
  · omega
  · omega
  · exact le_refl _

/-! Specification of the binary search loop. -/

theorem bsLoop_spec {α : Type} [Inhabited α] (f : α → Ordering)
    (xs : List α)
    (hmono : ∀ i j, i ≤ j → j < xs.length →
      ordRank (f (xs.getD i default)) ≤ ordRank (f (xs.getD j default))) :
    ∀ (fuel left right : Nat), right - left ≤ fuel → left ≤ right →
      right ≤ xs.length →
      (∀ i, i < left → f (xs.getD i default) = .lt) →
      (∀ i, right ≤ i → i < xs.length → f (xs.getD i default) = .gt) →
      (∀ k, bsLoop f xs fuel left right = .ok k →
        k < xs.length ∧ f (xs.getD k default) = .eq) ∧
      (∀ k, bsLoop f xs fuel left right = .error k →
        k ≤ xs.length ∧ (∀ i, i < k → f (xs.getD i default) = .lt) ∧
          (∀ i, k ≤ i → i < xs.length → f (xs.getD i default) = .gt)) := by
  intro fuel
  induction fuel with
  | zero =>
    intro left right hfuel hlr hrl h1 h2
    have hleft : left = right := by omega
    constructor
    · intro k hk
      simp [bsLoop] at hk
    · intro k hk
      simp only [bsLoop, Except.error.injEq] at hk
      subst hk
      exact ⟨by omega, h1, fun i hki hilen => h2 i (hleft ▸ hki) hilen⟩
  | succ fuel ih =>
    intro left right hfuel hlr hrl h1 h2
    by_cases hlt : left < right
    · have hdiv : (right - left) / 2 < right - left :=
        Nat.div_lt_self (by omega) (by omega)
      have hmidlt : left + (right - left) / 2 < right := by omega
      have hmidlen : left + (right - left) / 2 < xs.length := by omega
      rcases hcmp : f (xs.getD (left + (right - left) / 2) default) with _ | _ | _
      · have hstep : bsLoop f xs (fuel + 1) left right =
            bsLoop f xs fuel (left + (right - left) / 2 + 1) right := by
          rw [bsLoop, if_pos hlt, hcmp]
        rw [hstep]
        apply ih (left + (right - left) / 2 + 1) right (by omega) (by omega) hrl
        · intro i hi
          by_cases hil : i < left
          · exact h1 i hil
          · have hig : ordRank (f (xs.getD i default)) ≤
                ordRank (f (xs.getD (left + (right - left) / 2) default)) :=
              hmono i (left + (right - left) / 2) (by omega) hmidlen
            rw [hcmp] at hig
            exact ordRank_eq_zero.mp (by simpa [ordRank, Nat.le_zero] using hig)
        · exact h2
      · have hstep : bsLoop f xs (fuel + 1) left right =
            .ok (left + (right - left) / 2) := by
          rw [bsLoop, if_pos hlt, hcmp]
        rw [hstep]
        constructor
        · intro k hk
          simp only [Except.ok.injEq] at hk
          subst hk
          exact ⟨hmidlen, hcmp⟩
        · intro k hk
          simp at hk
      · have hstep : bsLoop f xs (fuel + 1) left right =
            bsLoop f xs fuel left (left + (right - left) / 2) := by
          rw [bsLoop, if_pos hlt, hcmp]
        rw [hstep]
        apply ih left (left + (right - left) / 2) (by omega) (by omega)
          (by omega) h1
        intro i hge hilen
        have hig : ordRank (f (xs.getD (left + (right - left) / 2) default)) ≤
            ordRank (f (xs.getD i default)) :=
          hmono (left + (right - left) / 2) i hge hilen
        rw [hcmp] at hig
        exact ordRank_eq_two.mp (by simpa [ordRank] using hig)
    · have hstep : bsLoop f xs (fuel + 1) left right = .error left := by
        simp [bsLoop, hlt]
      rw [hstep]
      have hleft : left = right := by omega
      constructor
      · intro k hk
        simp at hk
      · intro k hk
        simp only [Except.error.injEq] at hk
        subst hk
        exact ⟨by omega, h1, fun i hki hilen => h2 i (hleft ▸ hki) hilen⟩

/-! Properties of the insertion sort. -/

theorem insSorted_perm {α : Type} (le : α → α → Bool) (a : α) (l : List α) :
    (insSorted le a l).Perm (a :: l) := by
  induction l with
  | nil => exact List.Perm.refl _
  | cons b l ih =>
    by_cases h : le a b
    · simp [insSorted, h]
    · simp only [insSorted, if_neg h]
      exact (ih.cons b).trans (List.Perm.swap a b l)

theorem sortBy_perm {α : Type} (le : α → α → Bool) (l : List α) :
    (sortBy le l).Perm l := by
  induction l with
  | nil => exact List.Perm.refl _
  | cons a l ih =>
    exact (insSorted_perm le a (sortBy le l)).trans (ih.cons a)

theorem insSorted_pairwise {α : Type} (le : α → α → Bool)
    (htot : ∀ a b, le a b = true ∨ le b a = true)
    (htrans : ∀ a b c, le a b = true → le b c = true → le a c = true)
    (a : α) (l : List α) (hs : l.Pairwise (fun x y => le x y = true)) :
    (insSorted le a l).Pairwise (fun x y => le x y = true) := by
  induction l with
  | nil => simp [insSorted]
  | cons b l ih =>
    rcases List.pairwise_cons.mp hs with ⟨hb, hl⟩
    by_cases h : le a b
    · simp only [insSorted, if_pos h]
      refine List.pairwise_cons.mpr ⟨?_, hs⟩
      intro c hc
      rcases List.mem_cons.mp hc with rfl | hcl
      · exact h
      · exact htrans a b c h (hb c hcl)
    · simp only [insSorted, if_neg h]
      refine List.pairwise_cons.mpr ⟨?_, ih hl⟩
      intro c hc
      have hmem : c = a ∨ c ∈ l := by
        have := (insSorted_perm le a l).mem_iff.mp hc
        simpa using this
      rcases hmem with rfl | hcl
      · rcases htot c b with h1 | h2
        · exact absurd h1 h
        · exact h2
      · exact hb c hcl

theorem sortBy_pairwise {α : Type} (le : α → α → Bool)
    (htot : ∀ a b, le a b = true ∨ le b a = true)
    (htrans : ∀ a b c, le a b = true → le b c = true → le a c = true)
    (l : List α) :
    (sortBy le l).Pairwise (fun x y => le x y = true) := by
  induction l with
  | nil => simp [sortBy]
  | cons a l ih => exact insSorted_pairwise le htot htrans a _ ih

theorem sortBy_desc_sorted (v : List Post) :
    sortedDesc (sortBy descByPublished v) := by
  have h := sortBy_pairwise descByPublished
    (fun a b => by
      unfold descByPublished
      rcases le_total b.published a.published with h1 | h1
      · exact Or.inl (decide_eq_true h1)
      · exact Or.inr (decide_eq_true h1))
    (fun a b c h1 h2 => by
      unfold descByPublished at *
      exact decide_eq_true (le_trans (of_decide_eq_true h2) (of_decide_eq_true h1)))
    v
  exact h.imp (fun hab => of_decide_eq_true hab)

theorem fromList_sorted (v : List Post) :
    sortedDesc (Posts.fromList v).inner :=
  sortBy_desc_sorted v

/-! Index bounds of the binary search, with no sortedness assumption. -/

theorem bsLoop_idx_le {α : Type} [Inhabited α] (f : α → Ordering)
    (xs : List α) :
    ∀ (fuel left right : Nat), left ≤ right → right ≤ xs.length →
      (∀ k, bsLoop f xs fuel left right = .ok k → k ≤ xs.length) ∧
      (∀ k, bsLoop f xs fuel left right = .error k → k ≤ xs.length) := by
  intro fuel
  induction fuel with
  | zero =>
    intro left right hlr hrl
    refine ⟨fun k hk => by simp [bsLoop] at hk, fun k hk => ?_⟩
    simp only [bsLoop, Except.error.injEq] at hk
    omega
  | succ fuel ih =>
    intro left right hlr hrl
    by_cases hlt : left < right
    · have hdiv : (right - left) / 2 < right - left :=
        Nat.div_lt_self (by omega) (by omega)
      rcases hcmp : f (xs.getD (left + (right - left) / 2) default) with _ | _ | _
      · have hstep : bsLoop f xs (fuel + 1) left right =
            bsLoop f xs fuel (left + (right - left) / 2 + 1) right := by
          rw [bsLoop, if_pos hlt, hcmp]
        rw [hstep]
        exact ih (left + (right - left) / 2 + 1) right (by omega) hrl
      · have hstep : bsLoop f xs (fuel + 1) left right =
            .ok (left + (right - left) / 2) := by
          rw [bsLoop, if_pos hlt, hcmp]
        rw [hstep]
        refine ⟨fun k hk => ?_, fun k hk => by simp at hk⟩
        simp only [Except.ok.injEq] at hk
        omega
      · have hstep : bsLoop f xs (fuel + 1) left right =
            bsLoop f xs fuel left (left + (right - left) / 2) := by
          rw [bsLoop, if_pos hlt, hcmp]
        rw [hstep]
        exact ih left (left + (right - left) / 2) (by omega) (by omega)
    · have hstep : bsLoop f xs (fuel + 1) left right = .error left := by
        rw [bsLoop, if_neg hlt]
      rw [hstep]
      refine ⟨fun k hk => by simp at hk, fun k hk => ?_⟩
      simp only [Except.error.injEq] at hk
      omega

theorem insertIdxOf_le (ps : Posts) (post : Post) :
    insertIdxOf ps post ≤ ps.inner.length := by
  have h := bsLoop_idx_le (fun p => (Post.cmp p post).swap) ps.inner
    ps.inner.length 0 ps.inner.length (Nat.zero_le _) (le_refl _)
  unfold insertIdxOf binarySearchBy
  rcases hbs : bsLoop (fun p => (Post.cmp p post).swap) ps.inner
      ps.inner.length 0 ps.inner.length with k | k
  · exact h.2 k hbs
  · exact h.1 k hbs

theorem insert_inner_eq (ps : Posts) (post : Post) :
    (ps.insert post).inner = ps.inner.insertIdx (insertIdxOf ps post) post :=
  rfl

theorem insert_inner_perm (ps : Posts) (post : Post) :
    (ps.insert post).inner.Perm (post :: ps.inner) := by
  rw [insert_inner_eq]
  exact List.perm_insertIdx post ps.inner (insertIdxOf_le ps post)

theorem insert_countP (ps : Posts) (post : Post) (f : Post → Bool) :
    (ps.insert post).inner.countP f =
      ps.inner.countP f + (if f post then 1 else 0) := by
  rw [(insert_inner_perm ps post).countP_eq f, List.countP_cons]

/-! Sortedness preservation of Posts::insert. -/

theorem insertIdx_sortedDesc (post : Post) :
    ∀ (xs : List Post) (idx : Nat), sortedDesc xs → idx ≤ xs.length →
    (∀ k, k < idx → post.published ≤ (xs.getD k default).published) →
    (∀ k, idx ≤ k → k < xs.length →
      (xs.getD k default).published ≤ post.published) →
    sortedDesc (xs.insertIdx idx post) := by
  intro xs
  induction xs with
  | nil =>
    intro idx _ hlen _ _
    have h0 : idx = 0 := by simpa using hlen
    subst h0
    simp [List.insertIdx_zero, sortedDesc]
  | cons x xs ih =>
    intro idx hs hlen hb ha
    cases idx with
    | zero =>
      rw [List.insertIdx_zero]
      refine List.pairwise_cons.mpr ⟨?_, hs⟩
      intro b hbmem
      rcases List.mem_iff_getElem.mp hbmem with ⟨k, hk, rfl⟩
      have h := ha k (Nat.zero_le k) hk
      rwa [List.getD_eq_getElem _ _ hk] at h
    | succ n =>
      rw [List.insertIdx_succ_cons]
      have hpairs := List.pairwise_cons.mp hs
      have hlen2 : n ≤ xs.length := by simpa using hlen
      refine List.pairwise_cons.mpr ⟨?_, ?_⟩
      · intro b hbmem
        rcases (List.mem_insertIdx hlen2).mp hbmem with rfl | hbl
        · have h := hb 0 (Nat.succ_pos n)
          rwa [List.getD_cons_zero] at h
        · exact hpairs.1 b hbl
      · apply ih n hpairs.2 hlen2
        · intro k hk
          have h := hb (k + 1) (by omega)
          rwa [List.getD_cons_succ] at h
        · intro k hnk hklen
          have h := ha (k + 1) (by omega) (by simpa using Nat.succ_lt_succ hklen)
          rwa [List.getD_cons_succ] at h

theorem insert_sortedDesc (ps : Posts) (post : Post)
    (hs : sortedDesc ps.inner) : sortedDesc (ps.insert post).inner := by
  have hmono : ∀ i j, i ≤ j → j < ps.inner.length →
      ordRank ((fun p => (Post.cmp p post).swap) (ps.inner.getD i default)) ≤
        ordRank ((fun p => (Post.cmp p post).swap) (ps.inner.getD j default)) := by
    intro i j hij hj
    apply rank_swap_mono
    rcases Nat.eq_or_lt_of_le hij with rfl | hlt
    · exact le_refl _
    · have hi : i < ps.inner.length := by omega
      have h := List.pairwise_iff_getElem.mp hs i j hi hj hlt
      rwa [List.getD_eq_getElem _ _ hi, List.getD_eq_getElem _ _ hj]
  have hspec := bsLoop_spec (fun p => (Post.cmp p post).swap) ps.inner hmono
    ps.inner.length 0 ps.inner.length (by omega) (Nat.zero_le _) (le_refl _)
    (fun i hi => absurd hi (Nat.not_lt_zero i))
    (fun i hge hlen => absurd hlen (by omega))
  rw [insert_inner_eq]
  unfold insertIdxOf binarySearchBy
  rcases hbs : bsLoop (fun p => (Post.cmp p post).swap) ps.inner
      ps.inner.length 0 ps.inner.length with j | i
  · obtain ⟨hjlen, hlt, hgt⟩ := hspec.2 j hbs
    apply insertIdx_sortedDesc post ps.inner j hs hjlen
    · intro k hk
      exact le_of_lt (cmp_swap_eq_lt.mp (hlt k hk))
    · intro k h1 h2
      exact le_of_lt (cmp_swap_eq_gt.mp (hgt k h1 h2))
  · obtain ⟨hilen, heq⟩ := hspec.1 i hbs
    have hpub : (ps.inner.getD i default).published = post.published :=
      cmp_swap_eq_eq.mp heq
    apply insertIdx_sortedDesc post ps.inner i hs (le_of_lt hilen)
    · intro k hk
      have hklen : k < ps.inner.length := by omega
      have h := List.pairwise_iff_getElem.mp hs k i hklen hilen hk
      rw [List.getD_eq_getElem _ _ hklen]
      rw [List.getD_eq_getElem _ _ hilen] at hpub
      rw [hpub] at h
      exact h
    · intro k h1 h2
      rcases Nat.eq_or_lt_of_le h1 with rfl | hlt
      · exact le_of_eq hpub
      · have h := List.pairwise_iff_getElem.mp hs i k hilen h2 hlt
        rw [List.getD_eq_getElem _ _ h2]
        rw [List.getD_eq_getElem _ _ hilen] at hpub
        rw [hpub] at h
        exact h

/-! Characterization of Posts::contains on a sorted collection. -/

theorem contains_eq_true_iff (ps : Posts) (post : Post)
    (hs : sortedDesc ps.inner) :
    ps.contains post = true ↔
      ∃ q ∈ ps.inner, q.published = post.published := by
  have hmono : ∀ i j, i ≤ j → j < ps.inner.length →
      ordRank ((fun p => (Post.cmp p post).swap) (ps.inner.getD i default)) ≤
        ordRank ((fun p => (Post.cmp p post).swap) (ps.inner.getD j default)) := by
    intro i j hij hj
    apply rank_swap_mono
    rcases Nat.eq_or_lt_of_le hij with rfl | hlt
    · exact le_refl _
    · have hi : i < ps.inner.length := by omega
      have h := List.pairwise_iff_getElem.mp hs i j hi hj hlt
      rwa [List.getD_eq_getElem _ _ hi, List.getD_eq_getElem _ _ hj]
  have hspec := bsLoop_spec (fun p => (Post.cmp p post).swap) ps.inner hmono
    ps.inner.length 0 ps.inner.length (by omega) (Nat.zero_le _) (le_refl _)
    (fun i hi => absurd hi (Nat.not_lt_zero i))
    (fun i hge hlen => absurd hlen (by omega))
  unfold Posts.contains binarySearchBy
  rcases hbs : bsLoop (fun p => (Post.cmp p post).swap) ps.inner
      ps.inner.length 0 ps.inner.length with j | i
  · obtain ⟨hjlen, hlt, hgt⟩ := hspec.2 j hbs
    refine iff_of_false (by simp) ?_
    rintro ⟨q, hqmem, hqpub⟩
    rcases List.mem_iff_getElem.mp hqmem with ⟨k, hk, rfl⟩
    by_cases hkj : k < j
    · have h := cmp_swap_eq_lt.mp (hlt k hkj)
      rw [List.getD_eq_getElem _ _ hk] at h
      omega
    · have h := cmp_swap_eq_gt.mp (hgt k (by omega) hk)
      rw [List.getD_eq_getElem _ _ hk] at h
      omega
  · obtain ⟨hilen, heq⟩ := hspec.1 i hbs
    have hpub : (ps.inner.getD i default).published = post.published :=
      cmp_swap_eq_eq.mp heq
    refine iff_of_true rfl ⟨ps.inner.getD i default, ?_, hpub⟩
    rw [List.getD_eq_getElem _ _ hilen]
    exact List.getElem_mem hilen

/-! Preservation of the unread counter invariant by every operation. -/

theorem unreadInv_new : unreadInv Posts.new :=
  rfl

theorem unreadInv_fromList (v : List Post) : unreadInv (Posts.fromList v) :=
  rfl

theorem unreadInv_fromPost (p : Post) : unreadInv (Posts.fromPost p) := by
  rcases hp : p.read <;>
    simp [unreadInv, Posts.fromPost, List.countP_cons, hp]

theorem unreadInv_insert (ps : Posts) (post : Post) (h : unreadInv ps) :
    unreadInv (ps.insert post) := by
  unfold unreadInv at h ⊢
  rw [insert_countP]
  show (if post.read then ps.unread else ps.unread + 1) = _
  rcases hr : post.read <;> simp [hr, h]

theorem retainLoop_snd (f : Post → Bool) :
    ∀ (l : List Post) (c u : Nat), u = c + l.countP (fun p => !p.read) →
      (retainLoop f l u).2 = c + (retainLoop f l u).1.countP (fun p => !p.read) := by
  intro l
  induction l with
  | nil => intro c u hu; simpa [retainLoop] using hu
  | cons p rest ih =>
    intro c u hu
    rw [List.countP_cons] at hu
    by_cases hf : f p = true
    · simp only [retainLoop, if_pos hf]
      rw [List.countP_cons]
      rcases hp : p.read
      · simp [hp] at hu ⊢
        have hih := ih (c + 1) u (by omega)
        omega
      · simp [hp] at hu ⊢
        have hih := ih c u (by omega)
        omega
    · simp only [retainLoop, if_neg hf]
      rcases hp : p.read
      · simp [hp] at hu ⊢
        exact ih c (u - 1) (by omega)
      · simp [hp] at hu ⊢
        exact ih c u (by omega)

theorem unreadInv_retain (ps : Posts) (f : Post → Bool) (h : unreadInv ps) :
    unreadInv (ps.retain f) := by
  have hr := retainLoop_snd f ps.inner 0 ps.unread (by simpa using h)
  simpa [unreadInv, Posts.retain] using hr

theorem unreadInv_mark_read (ps : Posts) (post_id : Str) (read : Bool)
    (h : unreadInv ps) : unreadInv (ps.mark_read post_id read) := by
  unfold Posts.mark_read Posts.findIdxById
  rcases hidx : ps.inner.findIdx? (fun p => p.id == post_id) with _ | i
  · simp only [hidx]
    exact h
  · simp only [hidx]
    obtain ⟨hilen, hpi, hmin⟩ := List.findIdx?_eq_some_iff_getElem.mp hidx
    have hgd : ps.inner.getD i default = ps.inner[i] :=
      List.getD_eq_getElem _ _ hilen
    by_cases hread : ps.inner[i].read = read
    · rw [hgd]
      simp [hread, h]
    · rw [hgd]
      have hne : (ps.inner[i].read == read) = false := by
        simp [hread]
      simp only [hne, Bool.false_eq_true, if_false]
      unfold unreadInv at h ⊢
      simp only
      rw [List.countP_set _ _ _ _ hilen]
      rcases hpr : ps.inner[i].read <;> rcases hrd : read <;> simp_all

theorem unreadInv_toggle_read (ps : Posts) (post_id : Str)
    (h : unreadInv ps) : unreadInv (ps.toggle_read post_id) := by
  unfold Posts.toggle_read Posts.findIdxById
  rcases hidx : ps.inner.findIdx? (fun p => p.id == post_id) with _ | i
  · simp only [hidx]
    exact h
  · simp only [hidx]
    obtain ⟨hilen, hpi, hmin⟩ := List.findIdx?_eq_some_iff_getElem.mp hidx
    have hgd : ps.inner.getD i default = ps.inner[i] :=
      List.getD_eq_getElem _ _ hilen
    rw [hgd]
    unfold unreadInv at h ⊢
    simp only
    rw [List.countP_set _ _ _ _ hilen]
    rcases hpr : ps.inner[i].read <;> simp_all

theorem unreadInv_insertFold (l : List Post) :
    ∀ ps : Posts, unreadInv ps →
      unreadInv (l.foldl (fun acc post => acc.insert post) ps) := by
  induction l with
  | nil => intro ps h; exact h
  | cons p rest ih => intro ps h; exact ih _ (unreadInv_insert ps p h)

theorem unreadInv_append (ps other : Posts) (h : unreadInv ps) :
    unreadInv (ps.append other) :=
  unreadInv_insertFold other.inner ps h

theorem unreadInv_applyOp (ps : Posts) (op : Op) (h : unreadInv ps) :
    unreadInv (applyOp ps op) := by
  cases op with
  | insertOp post => exact unreadInv_insert ps post h
  | appendOp other => exact unreadInv_append ps other h
  | markRead pid r => exact unreadInv_mark_read ps pid r h
  | toggleRead pid => exact unreadInv_toggle_read ps pid h
  | retainOp f => exact unreadInv_retain ps f h

/-! Claim theorems for the Post Collection. -/

/-- C1: for every collection built by Posts::new or Posts::from and every
finite sequence of insert, append, mark_read, toggle_read and retain
operations, the unread counter equals the number of contained posts whose
read flag is false.  Every observable point of a longer sequence is the
fold of one of its prefixes, and the operation list here is arbitrary, so
the equality holds at every observable point. -/
theorem unread_counter_invariant (start : Posts)
    (hstart : start = Posts.new ∨ (∃ v, start = Posts.fromList v) ∨
      ∃ p, start = Posts.fromPost p)
    (ops : List Op) :
    (ops.foldl applyOp start).unread =
      (ops.foldl applyOp start).inner.countP (fun p => !p.read) := by
  have h0 : unreadInv start := by
    rcases hstart with rfl | ⟨v, rfl⟩ | ⟨p, rfl⟩
    · exact unreadInv_new
    · exact unreadInv_fromList v
    · exact unreadInv_fromPost p
  clear hstart
  induction ops generalizing start with
  | nil => exact h0
  | cons op rest ih => exact ih (applyOp start op) (unreadInv_applyOp start op h0)

/-- Witness for C1 at a concrete operation sequence exercising every
operation kind. -/
theorem unread_counter_invariant_witness :
    ([Op.insertOp { id := [97], title := [], urls := [], published := 3, read := false },
      Op.insertOp { id := [98], title := [], urls := [], published := 5, read := true },
      Op.markRead [97] true,
      Op.toggleRead [98],
      Op.retainOp (fun p => p.read),
      Op.appendOp (Posts.fromPost
        { id := [99], title := [], urls := [], published := 4, read := false })
     ].foldl applyOp Posts.new).unread =
      ([Op.insertOp { id := [97], title := [], urls := [], published := 3, read := false },
        Op.insertOp { id := [98], title := [], urls := [], published := 5, read := true },
        Op.markRead [97] true,
        Op.toggleRead [98],
        Op.retainOp (fun p => p.read),
        Op.appendOp (Posts.fromPost
          { id := [99], title := [], urls := [], published := 4, read := false })
       ].foldl applyOp Posts.new).inner.countP (fun p => !p.read) :=
  unread_counter_invariant Posts.new (Or.inl rfl) _

/-- C2: starting from a collection built by Posts::new or Posts::from,
every finite sequence of inserts keeps the iteration order non-increasing
by published.  The insert list is arbitrary, so the sortedness holds
after each call of any longer sequence. -/
theorem insert_sequence_sorted (start : Posts)
    (hstart : start = Posts.new ∨ (∃ v, start = Posts.fromList v) ∨
      ∃ p, start = Posts.fromPost p)
    (l : List Post) :
    sortedDesc ((l.foldl Posts.insert start).inner) := by
  have hs : sortedDesc start.inner := by
    rcases hstart with rfl | ⟨v, rfl⟩ | ⟨p, rfl⟩
    · simp [Posts.new, sortedDesc]
    · exact fromList_sorted v
    · simp [Posts.fromPost, sortedDesc]
  clear hstart
  induction l generalizing start with
  | nil => exact hs
  | cons p rest ih => exact ih (start.insert p) (insert_sortedDesc start p hs)

/-- Witness for C2 at a concrete insert sequence. -/
theorem insert_sequence_sorted_witness :
    sortedDesc ((([{ id := [97], title := [], urls := [], published := 3, read := false },
       { id := [98], title := [], urls := [], published := 9, read := true },
       { id := [99], title := [], urls := [], published := 5, read := false }] :
         List Post).foldl Posts.insert Posts.new).inner) :=
  insert_sequence_sorted Posts.new (Or.inl rfl) _

/-- C3 counterexample: inserting two posts that carry the same PostId but
different content (directly via insert) yields a collection with two
elements of that id, refuting the dedup-by-id claim. -/
theorem insert_no_dedup_counterexample :
    ¬ ((((Posts.new.insert
        { id := [120], title := [97], urls := [], published := 5, read := false }).insert
        { id := [120], title := [98], urls := [], published := 7, read := false }).inner.countP
          (fun p => p.id == [120])) ≤ 1) := by
  decide

/-- C3 amended: Posts::insert performs no deduplication by id: each
insert adds exactly one element, so after inserting two posts with the
same PostId the collection holds exactly two more elements with that id
than before; Posts::append inherits this since it is a fold of inserts.
Avoiding duplicates is the caller's duty (via contains). -/
theorem insert_same_id_duplicates (ps : Posts) (p q : Post)
    (h : p.id = q.id) :
    ((ps.insert p).insert q).inner.countP (fun r => r.id == p.id) =
      ps.inner.countP (fun r => r.id == p.id) + 2 := by
  rw [insert_countP, insert_countP]
  simp [h.symm]

/-- Witness for the amended C3 at concrete posts. -/
theorem insert_same_id_duplicates_witness :
    ((Posts.new.insert
        { id := [120], title := [97], urls := [], published := 5, read := false }).insert
        { id := [120], title := [98], urls := [], published := 7, read := false }).inner.countP
          (fun r => r.id == ([120] : Str)) =
      Posts.new.inner.countP (fun r => r.id == ([120] : Str)) + 2 :=
  insert_same_id_duplicates Posts.new
    { id := [120], title := [97], urls := [], published := 5, read := false }
    { id := [120], title := [98], urls := [], published := 7, read := false }
    rfl

/-- C8 counterexample: contains answers true for a post that shares only
the published timestamp with a contained post while their ids differ, so
contains is not an id-respecting identity test. -/
theorem contains_no_id_tiebreak_counterexample :
    ¬ (((Posts.fromPost
          { id := [97], title := [], urls := [], published := 5, read := false }).contains
          { id := [98], title := [], urls := [], published := 5, read := false } = true) ↔
        ∃ q ∈ (Posts.fromPost
          { id := [97], title := [], urls := [], published := 5, read := false }).inner,
          q.published = (5 : Int) ∧ q.id = ([98] : Str)) := by
  decide

/-- Witness for the amended C8 at a concrete collection and probe
post. -/
theorem contains_eq_true_iff_witness :
    sortedDesc (Posts.fromPost
      { id := [97], title := [], urls := [], published := 5, read := false }).inner ∧
    ((Posts.fromPost
        { id := [97], title := [], urls := [], published := 5, read := false }).contains
        { id := [98], title := [], urls := [], published := 5, read := false } = true ↔
      ∃ q ∈ (Posts.fromPost
        { id := [97], title := [], urls := [], published := 5, read := false }).inner,
        q.published = (5 : Int)) :=
  ⟨by simp [Posts.fromPost, sortedDesc],
   contains_eq_true_iff _ _ (by simp [Posts.fromPost, sortedDesc])⟩

/-! Round-trip of the postcard value encoding. -/

theorem parseUleb_ulebGo (rest : Str) :
    ∀ (fuel n : Nat), n ≤ fuel →
      parseUleb (ulebGo fuel n ++ rest) = some (n, rest) := by
  intro fuel
  induction fuel with
  | zero =>
    intro n hn
    have h0 : n = 0 := by omega
    subst h0
    simp [ulebGo, parseUleb]
  | succ fuel ih =>
    intro n hn
    by_cases h : n < 128
    · simp [ulebGo, h, parseUleb]
    · simp only [ulebGo, if_neg h, List.cons_append, parseUleb]
      rw [if_neg (by omega)]
      rw [ih (n / 128) (by omega)]
      simp only [Option.some.injEq, Prod.mk.injEq]
      exact ⟨by omega, trivial⟩

theorem parseUleb_uleb (n : Nat) (rest : Str) :
    parseUleb (uleb n ++ rest) = some (n, rest) :=
  parseUleb_ulebGo rest n n (le_refl n)

theorem parseBytes_enc (s rest : Str) :
    parseBytes (encBytes s ++ rest) = some (s, rest) := by
  unfold parseBytes encBytes
  rw [List.append_assoc, parseUleb_uleb]
  simp only
  rw [if_pos (by simp)]
  rw [List.take_left, List.drop_left]

theorem parseUrls_enc :
    ∀ (us : List Str) (rest : Str),
      parseUrls us.length ((us.map encBytes).flatten ++ rest) =
        some (us, rest) := by
  intro us
  induction us with
  | nil => intro rest; simp [parseUrls]
  | cons u us ih =>
    intro rest
    simp only [List.map_cons, List.flatten_cons, List.length_cons, parseUrls]
    rw [List.append_assoc, parseBytes_enc]
    simp only
    rw [ih rest]

theorem unzigzag_zigzag (i : Int) : unzigzag (zigzag i) = i := by
  unfold zigzag unzigzag
  by_cases h : 0 ≤ i
  · rw [if_pos h, if_pos (by omega)]
    omega
  · rw [if_neg h, if_neg (by omega)]
    omega

theorem decodePost_encodePost (p : Post) :
    decodePost (encodePost p) = some p := by
  obtain ⟨pid, ptitle, purls, ppub, pread⟩ := p
  rcases pread <;>
    simp [decodePost, encodePost, List.append_assoc, parseBytes_enc,
      parseUleb_uleb, parseUrls_enc, unzigzag_zigzag]

/-! Behaviour of the modelled sled tree. -/

theorem treeInsert_fresh (t : Tree) (k v : Str)
    (h : ∀ kv ∈ t, kv.1 ≠ k) : treeInsert t k v = t ++ [(k, v)] := by
  have hany : t.any (fun kv => kv.1 == k) = false := by
    rw [List.any_eq_false]
    intro kv hkv
    simp [h kv hkv]
  simp [treeInsert, hany]

theorem treeScan_insert_other_key (t : Tree) (k v pfx : Str)
    (h : pfx.isPrefixOf k = false) :
    treeScan (treeInsert t k v) pfx = treeScan t pfx := by
  unfold treeInsert treeScan
  by_cases hany : t.any (fun kv => kv.1 == k) = true
  · rw [if_pos hany]
    clear hany
    induction t with
    | nil => rfl
    | cons kv t ih =>
      simp only [List.map_cons, List.filter_cons]
      by_cases hk : kv.1 == k
      · have hk2 : kv.1 = k := by simpa using hk
        rw [if_pos hk]
        simp only [h, hk2]
        exact ih
      · rw [if_neg hk]
        by_cases hp : pfx.isPrefixOf kv.1 = true
        · simp only [hp, if_pos rfl]
          rw [ih]
        · simp only [Bool.not_eq_true] at hp
          simp only [hp]
          rw [ih]
  · rw [if_neg hany]
    rw [List.filter_append]
    simp [h]

theorem foldSave_eq (feed_url : Str) :
    ∀ (l : List Post) (t : Tree),
      (∀ p ∈ l, make_key feed_url p ∉ t.map Prod.fst) →
      (l.map (fun p => make_key feed_url p)).Nodup →
      l.foldl
        (fun tr post => treeInsert tr (make_key feed_url post) (encodePost post))
        t =
        t ++ l.map (fun p => (make_key feed_url p, encodePost p)) := by
  intro l
  induction l with
  | nil => intro t _ _; simp
  | cons p rest ih =>
    intro t hfresh hnodup
    rw [List.map_cons] at hnodup
    have hnodup2 : (rest.map (fun p => make_key feed_url p)).Nodup :=
      (List.nodup_cons.mp hnodup).2
    have hnp : make_key feed_url p ∉ rest.map (fun p => make_key feed_url p) :=
      (List.nodup_cons.mp hnodup).1
    have hfresh1 : ∀ kv ∈ t, kv.1 ≠ make_key feed_url p := by
      intro kv hm hcontra
      exact hfresh p (List.mem_cons_self p rest)
        (hcontra ▸ List.mem_map_of_mem Prod.fst hm)
    have hfresh2 : ∀ q ∈ rest, make_key feed_url q ∉
        (t ++ [(make_key feed_url p, encodePost p)]).map Prod.fst := by
      intro q hq
      rw [List.map_append]
      simp only [List.mem_append, List.map_cons, List.map_nil,
        List.mem_singleton, not_or]
      refine ⟨hfresh q (List.mem_cons_of_mem p hq), ?_⟩
      intro hcontra
      exact hnp (hcontra ▸ List.mem_map_of_mem (fun p => make_key feed_url p) hq)
    simp only [List.foldl_cons]
    rw [treeInsert_fresh t _ _ hfresh1, ih _ hfresh2 hnodup2]
    simp

theorem isPrefixOf_append_left : ∀ (l r : List Nat),
    l.isPrefixOf (l ++ r) = true := by
  intro l
  induction l with
  | nil => intro r; simp [List.isPrefixOf]
  | cons a l ih => intro r; simp [List.isPrefixOf, ih]

theorem feedPrefix_isPrefixOf_make_key (u : Str) (p : Post) :
    (feedPrefixBytes u).isPrefixOf (make_key u p) = true := by
  unfold feedPrefixBytes make_key
  exact isPrefixOf_append_left (u ++ [0]) p.id

theorem filterMap_decode (u : Str) (l : List Post) :
    (l.map (fun p => (make_key u p, encodePost p))).filterMap
      (fun kv => decodePost kv.2) = l := by
  induction l with
  | nil => rfl
  | cons p rest ih =>
    simp [List.filterMap_cons, decodePost_encodePost, ih]

/-- C4: on a tree holding no prior entries for the feed (the fresh
database case the round-trip property describes) and for a batch whose
posts have pairwise distinct ids (the collection invariant), save_posts
followed by load_feed returns exactly the saved posts: the multiset of
(id, read flag) pairs is preserved, so the post set by id equals the
saved set with every read flag intact. -/
theorem save_load_roundtrip (t : Tree) (feed_url : Str) (posts : Posts)
    (hpre : ∀ kv ∈ t, (feedPrefixBytes feed_url).isPrefixOf kv.1 = false)
    (hids : (posts.inner.map Post.id).Nodup) :
    ((load_feed (save_posts t feed_url posts) feed_url).inner.map
        (fun p => (p.id, p.read))).Perm
      (posts.inner.map (fun p => (p.id, p.read))) := by
  have hkeys : (posts.inner.map (fun p => make_key feed_url p)).Nodup := by
    have hmm : posts.inner.map (fun p => make_key feed_url p) =
        (posts.inner.map Post.id).map (fun s => feed_url ++ [0] ++ s) := by
      rw [List.map_map]
      rfl
    rw [hmm]
    apply List.Nodup.map ?_ hids
    intro a b hab
    exact List.append_cancel_left hab
  have hfresh : ∀ p ∈ posts.inner, make_key feed_url p ∉ t.map Prod.fst := by
    intro p hp hmem
    rcases List.mem_map.mp hmem with ⟨kv, hkv, hfst⟩
    have hh := hpre kv hkv
    rw [hfst, feedPrefix_isPrefixOf_make_key] at hh
    exact absurd hh (by simp)
  unfold save_posts load_feed treeScan
  rw [foldSave_eq feed_url posts.inner t hfresh hkeys, List.filter_append]
  have h1 : t.filter
      (fun kv => (feedPrefixBytes feed_url).isPrefixOf kv.1) = [] := by
    rw [List.filter_eq_nil_iff]
    intro kv hkv
    simp [hpre kv hkv]
  have h2 : (posts.inner.map
        (fun p => (make_key feed_url p, encodePost p))).filter
      (fun kv => (feedPrefixBytes feed_url).isPrefixOf kv.1) =
      posts.inner.map (fun p => (make_key feed_url p, encodePost p)) := by
    rw [List.filter_eq_self]
    intro kv hkv
    rcases List.mem_map.mp hkv with ⟨p, _, rfl⟩
    exact feedPrefix_isPrefixOf_make_key feed_url p
  rw [h1, h2, List.nil_append, filterMap_decode]
  exact (sortBy_perm descByPublished posts.inner).map _

/-- Witness for C4: one post saved into an empty tree and loaded back. -/
theorem save_load_roundtrip_witness :
    (∀ kv ∈ ([] : Tree), (feedPrefixBytes [97]).isPrefixOf kv.1 = false) ∧
    ((Posts.fromPost
      { id := [120], title := [104], urls := [[119]], published := -3,
        read := true }).inner.map Post.id).Nodup ∧
    ((load_feed (save_posts [] [97] (Posts.fromPost
        { id := [120], title := [104], urls := [[119]], published := -3,
          read := true })) [97]).inner.map (fun p => (p.id, p.read))).Perm
      ((Posts.fromPost
        { id := [120], title := [104], urls := [[119]], published := -3,
          read := true }).inner.map (fun p => (p.id, p.read))) :=
  ⟨fun kv hkv => absurd hkv (List.not_mem_nil kv),
   by decide,
   save_load_roundtrip [] [97] _
     (fun kv hkv => absurd hkv (List.not_mem_nil kv)) (by decide)⟩

/-- Keys of different NUL-free feed URLs never fall under each other's
scan prefix: the 0 separator cannot occur inside a URL, so B ++ [0] can
only be a prefix of A ++ [0] ++ id when A = B. -/
theorem sepKeyDisjoint :
    ∀ (A B : Str), (0 : Nat) ∉ A → (0 : Nat) ∉ B → A ≠ B →
      ∀ id : Str, (B ++ [0]).isPrefixOf (A ++ [0] ++ id) = false := by
  intro A
  induction A with
  | nil =>
    intro B h0A h0B hne id
    cases B with
    | nil => exact absurd rfl hne
    | cons b B2 =>
      have hb : b ≠ 0 := fun hb0 => h0B (hb0 ▸ List.mem_cons_self b B2)
      simp [List.isPrefixOf, hb]
  | cons a A2 ih =>
    intro B h0A h0B hne id
    cases B with
    | nil =>
      have ha : a ≠ 0 := fun ha0 => h0A (ha0 ▸ List.mem_cons_self a A2)
      simp [List.isPrefixOf, Ne.symm ha]
    | cons b B2 =>
      simp only [List.cons_append, List.isPrefixOf, Bool.and_eq_false_iff]
      by_cases hba : b = a
      · subst hba
        refine Or.inr ?_
        have hne2 : A2 ≠ B2 := fun hcontra => hne (by rw [hcontra])
        have h0A2 : (0 : Nat) ∉ A2 := fun hmem =>
          h0A (List.mem_cons_of_mem b hmem)
        have h0B2 : (0 : Nat) ∉ B2 := fun hmem =>
          h0B (List.mem_cons_of_mem b hmem)
        exact ih B2 h0A2 h0B2 hne2 id
      · exact Or.inl (by simp [hba])

theorem treeScan_foldSave_other (A B : Str) (hA : (0 : Nat) ∉ A)
    (hB : (0 : Nat) ∉ B) (hAB : A ≠ B) :
    ∀ (l : List Post) (t : Tree),
      treeScan
        (l.foldl (fun tr post =>
          treeInsert tr (make_key A post) (encodePost post)) t)
        (feedPrefixBytes B) =
      treeScan t (feedPrefixBytes B) := by
  intro l
  induction l with
  | nil => intro t; rfl
  | cons p rest ih =>
    intro t
    simp only [List.foldl_cons]
    rw [ih (treeInsert t (make_key A p) (encodePost p))]
    exact treeScan_insert_other_key t _ _ _
      (sepKeyDisjoint A B hA hB hAB p.id)

/-- C5: prefix isolation of the key encoding.  Saving a batch under one
NUL-free feed URL leaves the load result of every other NUL-free feed URL
unchanged, including when one URL is a proper prefix of the other:
load(B) after save(A, posts) equals load(B) before it. -/
theorem save_prefix_isolated (t : Tree) (A B : Str) (posts : Posts)
    (hA : (0 : Nat) ∉ A) (hB : (0 : Nat) ∉ B) (hAB : A ≠ B) :
    load_feed (save_posts t A posts) B = load_feed t B := by
  unfold load_feed save_posts
  rw [treeScan_foldSave_other A B hA hB hAB posts.inner t]

/-- Witness for C5 with A a proper prefix of B. -/
theorem save_prefix_isolated_witness :
    ((0 : Nat) ∉ ([97] : Str)) ∧ ((0 : Nat) ∉ ([97, 98] : Str)) ∧
    ([97] : Str) ≠ [97, 98] ∧
    load_feed (save_posts [] [97] (Posts.fromPost
      { id := [120], title := [], urls := [], published := 0,
        read := false })) [97, 98] =
      load_feed [] [97, 98] :=
  ⟨by decide, by decide, by decide,
   save_prefix_isolated [] [97] [97, 98] _ (by decide) (by decide) (by decide)⟩

/-! The download worker protocol. -/

theorem runFeedDownloader_cons (env : WorkerEnv) (fu : FeedId × Str)
    (rest : List (FeedId × Str)) :
    runFeedDownloader env (fu :: rest) =
      (DownloadResponse.started fu.1 ::
        (match env.fetch fu.2 with
         | none => [DownloadResponse.failed fu.1]
         | some body =>
           [DownloadResponse.finished fu.1
             (sortBy ascByPublished
               (match env.parseAtom body with
                | some atom => extract_from_atom env.extractEnv atom
                | none =>
                  match env.parseRss body with
                  | some rss => extract_from_rss env.extractEnv rss
                  | none => []))])) ++
      runFeedDownloader env rest := by
  simp [runFeedDownloader]

theorem runFeedDownloader_filter_not_mem (env : WorkerEnv) :
    ∀ (feeds : List (FeedId × Str)) (g : FeedId),
      g ∉ feeds.map Prod.fst →
      (runFeedDownloader env feeds).filter (fun r => respFeed r == g) = [] := by
  intro feeds
  induction feeds with
  | nil => intro g _; rfl
  | cons fu rest ih =>
    intro g hg
    simp only [List.map_cons, List.mem_cons, not_or] at hg
    obtain ⟨hg1, hg2⟩ := hg
    have hne : (fu.1 == g) = false := by
      simp only [beq_eq_false_iff_ne]
      exact fun hcontra => hg1 hcontra.symm
    rw [runFeedDownloader_cons, List.filter_append, ih g hg2]
    rcases hf : env.fetch fu.2 with _ | body <;>
      simp [hf, List.filter_cons, respFeed, hne]

/-- C6: within one worker batch whose feed identities are distinct (as
the dispatcher constructs them), the responses carrying a given feed
identity are exactly one Started followed immediately by exactly one
terminal response, Failed or Finished.  The statement holds for every
member of the batch irrespective of the other feeds' outcomes, which is
the failure-isolation half of the claim. -/
theorem worker_per_feed_protocol (env : WorkerEnv)
    (feeds : List (FeedId × Str)) (hnodup : (feeds.map Prod.fst).Nodup)
    (f : FeedId) (u : Str) (hmem : (f, u) ∈ feeds) :
    ∃ t, (runFeedDownloader env feeds).filter (fun r => respFeed r == f) =
        [DownloadResponse.started f, t] ∧
      (t = DownloadResponse.failed f ∨
        ∃ posts, t = DownloadResponse.finished f posts) := by
  revert hnodup hmem
  induction feeds with
  | nil => intro _ hmem; cases hmem
  | cons fu rest ih =>
    intro hnodup hmem
    rw [List.map_cons] at hnodup
    obtain ⟨hnot, hnodup2⟩ := List.nodup_cons.mp hnodup
    rw [runFeedDownloader_cons, List.filter_append]
    rcases List.mem_cons.mp hmem with heq | hmem2
    · have hfu1 : fu.1 = f := by rw [← heq]
      have hrest : (runFeedDownloader env rest).filter
          (fun r => respFeed r == f) = [] := by
        apply runFeedDownloader_filter_not_mem
        rw [← hfu1]
        exact hnot
      rcases hf : env.fetch fu.2 with _ | body
      · refine ⟨DownloadResponse.failed f, ?_, Or.inl rfl⟩
        rw [hrest]
        simp [hf, List.filter_cons, respFeed, hfu1]
      · refine ⟨DownloadResponse.finished f
          (sortBy ascByPublished
            (match env.parseAtom body with
             | some atom => extract_from_atom env.extractEnv atom
             | none =>
               match env.parseRss body with
               | some rss => extract_from_rss env.extractEnv rss
               | none => [])), ?_, Or.inr ⟨_, rfl⟩⟩
        rw [hrest]
        simp [hf, List.filter_cons, respFeed, hfu1]
    · have hne : (fu.1 == f) = false := by
        simp only [beq_eq_false_iff_ne]
        intro hcontra
        apply hnot
        rw [hcontra]
        exact List.mem_map_of_mem Prod.fst hmem2
      obtain ⟨t, h1, h2⟩ := ih hnodup2 hmem2
      refine ⟨t, ?_, h2⟩
      rw [h1]
      rcases hf : env.fetch fu.2 with _ | body <;>
        simp [hf, List.filter_cons, respFeed, hne]

/-- Witness for C6: a one-feed batch whose fetch fails. -/
theorem worker_per_feed_protocol_witness :
    ((([(FeedId.mk 0 0, ([104] : Str))]).map Prod.fst).Nodup ∧
      (FeedId.mk 0 0, ([104] : Str)) ∈ [(FeedId.mk 0 0, ([104] : Str))]) ∧
    ∃ t, (runFeedDownloader failWorkerEnv
        [(FeedId.mk 0 0, ([104] : Str))]).filter
          (fun r => respFeed r == FeedId.mk 0 0) =
        [DownloadResponse.started (FeedId.mk 0 0), t] ∧
      (t = DownloadResponse.failed (FeedId.mk 0 0) ∨
        ∃ posts, t = DownloadResponse.finished (FeedId.mk 0 0) posts) :=
  ⟨⟨by decide, by decide⟩,
   worker_per_feed_protocol failWorkerEnv [(FeedId.mk 0 0, [104])]
     (by decide) (FeedId.mk 0 0) [104] (by decide)⟩

/-- C7: when the fetch of a feed succeeds but the body parses as neither
Atom nor RSS, the worker emits Started followed by Finished with an empty
post sequence for that feed, and no Failed response for that feed appears
anywhere in the batch output: Failed is reserved for a failure to obtain
the body. -/
theorem worker_unparseable_body_finishes_empty (env : WorkerEnv)
    (feeds : List (FeedId × Str)) (hnodup : (feeds.map Prod.fst).Nodup)
    (f : FeedId) (u : Str) (hmem : (f, u) ∈ feeds) (body : Str)
    (hfetch : env.fetch u = some body)
    (hatom : env.parseAtom body = none)
    (hrss : env.parseRss body = none) :
    (runFeedDownloader env feeds).filter (fun r => respFeed r == f) =
      [DownloadResponse.started f,
       DownloadResponse.finished f []] ∧
    DownloadResponse.failed f ∉ runFeedDownloader env feeds := by
  revert hnodup hmem
  induction feeds with
  | nil => intro _ hmem; cases hmem
  | cons fu rest ih =>
    intro hnodup hmem
    rw [List.map_cons] at hnodup
    obtain ⟨hnot, hnodup2⟩ := List.nodup_cons.mp hnodup
    rw [runFeedDownloader_cons, List.filter_append]
    rcases List.mem_cons.mp hmem with heq | hmem2
    · have hfu1 : fu.1 = f := by rw [← heq]
      have hfu2 : fu.2 = u := by rw [← heq]
      have hrest : (runFeedDownloader env rest).filter
          (fun r => respFeed r == f) = [] := by
        apply runFeedDownloader_filter_not_mem
        rw [← hfu1]
        exact hnot
      have hrestfail : DownloadResponse.failed f ∉ runFeedDownloader env rest := by
        intro hcontra
        have hmemf : DownloadResponse.failed f ∈
            (runFeedDownloader env rest).filter (fun r => respFeed r == f) :=
          List.mem_filter.mpr ⟨hcontra, by simp [respFeed]⟩
        rw [hrest] at hmemf
        exact absurd hmemf (List.not_mem_nil _)
      constructor
      · rw [hrest]
        simp [hfu1, hfu2, hfetch, hatom, hrss, List.filter_cons,
          respFeed, sortBy]
      · intro hcontra
        rcases List.mem_append.mp hcontra with hinb | hinr
        · rw [hfu1, hfu2, hfetch] at hinb
          simp [hatom, hrss] at hinb
        · exact hrestfail hinr
    · have hne : (fu.1 == f) = false := by
        simp only [beq_eq_false_iff_ne]
        intro hcontra
        apply hnot
        rw [hcontra]
        exact List.mem_map_of_mem Prod.fst hmem2
      have hnef : fu.1 ≠ f := by simpa [beq_eq_false_iff_ne] using hne
      obtain ⟨h1, h2⟩ := ih hnodup2 hmem2
      constructor
      · rw [h1]
        rcases hf : env.fetch fu.2 with _ | bd <;>
          simp [hf, List.filter_cons, respFeed, hne]
      · intro hcontra
        rcases List.mem_append.mp hcontra with hinb | hinr
        · rcases hf : env.fetch fu.2 with _ | bd
          · rw [hf] at hinb
            simp at hinb
            exact hnef hinb.symm
          · rw [hf] at hinb
            simp at hinb
        · exact h2 hinr

/-- Witness for C7: a one-feed batch whose fetch succeeds with an
unparseable body. -/
theorem worker_unparseable_witness :
    (stubWorkerEnv.fetch [104] = some [60] ∧
      stubWorkerEnv.parseAtom [60] = none ∧
      stubWorkerEnv.parseRss [60] = none) ∧
    (runFeedDownloader stubWorkerEnv
        [(FeedId.mk 0 0, ([104] : Str))]).filter
          (fun r => respFeed r == FeedId.mk 0 0) =
      [DownloadResponse.started (FeedId.mk 0 0),
       DownloadResponse.finished (FeedId.mk 0 0) []] ∧
    DownloadResponse.failed (FeedId.mk 0 0) ∉
      runFeedDownloader stubWorkerEnv [(FeedId.mk 0 0, ([104] : Str))] :=
  ⟨⟨rfl, rfl, rfl⟩,
   (worker_unparseable_body_finishes_empty stubWorkerEnv
     [(FeedId.mk 0 0, [104])] (by decide) (FeedId.mk 0 0) [104] (by decide)
     [60] rfl rfl rfl).1,
   (worker_unparseable_body_finishes_empty stubWorkerEnv
     [(FeedId.mk 0 0, [104])] (by decide) (FeedId.mk 0 0) [104] (by decide)
     [60] rfl rfl rfl).2⟩

/-! RSS identifier synthesis. -/

theorem decimalGo_ne_nil : ∀ (fuel n : Nat), decimalGo fuel n ≠ [] := by
  intro fuel n
  cases fuel with
  | zero => simp [decimalGo]
  | succ fuel =>
    by_cases h : n < 10 <;> simp [decimalGo, h]

theorem hash_ne_nil (s : Str) : Download.hash s ≠ [] := by
  unfold Download.hash natToDecimal
  apply decimalGo_ne_nil

/-- C9 counterexample: an RSS item whose guid is present but empty keeps
the empty guid as its identifier; the claim instead requires the hash
fallback for a non-non-empty guid, and the hash is never the empty
string, so the claimed identifier differs from the extracted one. -/
theorem rss_empty_guid_counterexample :
    (rss_post_of_item trivialEnv emptyGuidRssItem).id = ([] : Str) ∧
    Download.hash (trivialEnv.debugFormatId
      (rssPublishedOf trivialEnv emptyGuidRssItem)
      (rssNameOf emptyGuidRssItem)) ≠ ([] : Str) :=
  ⟨rfl, hash_ne_nil _⟩

theorem foldl_append_singleton {α β : Type} (g : α → β) :
    ∀ (l : List α) (acc : List β),
      l.foldl (fun a x => a ++ [g x]) acc = acc ++ l.map g := by
  intro l
  induction l with
  | nil => intro acc; simp
  | cons x l ih =>
    intro acc
    simp only [List.foldl_cons, List.map_cons]
    rw [ih]
    simp

theorem extract_from_rss_eq_map (env : ExtractEnv) (channel : RssChannel) :
    extract_from_rss env channel =
      channel.items.map (rss_post_of_item env) := by
  unfold extract_from_rss
  rw [foldl_append_singleton]
  simp

/-- C9 amended: every post extracted from an RSS channel draws its
identifier from its item as follows: the guid value whenever a guid is
present (even an empty one — the code checks presence, not
non-emptiness), and otherwise the FNV hash of the fixed Debug rendering
of the (published, title) pair, a deterministic function of those two
values, so re-fetching the same item under the same oracles synthesizes
the same identifier. -/
theorem rss_extracted_id (env : ExtractEnv) (channel : RssChannel)
    (p : Post) (hp : p ∈ extract_from_rss env channel) :
    ∃ item ∈ channel.items,
      p.id =
        match item.guid with
        | some g => g
        | none =>
          Download.hash
            (env.debugFormatId (rssPublishedOf env item) (rssNameOf item)) := by
  rw [extract_from_rss_eq_map] at hp
  rcases List.mem_map.mp hp with ⟨item, hitem, rfl⟩
  exact ⟨item, hitem, rfl⟩

/-- Witness for the amended C9: a one-item channel whose item carries a
guid. -/
theorem rss_extracted_id_witness :
    (rss_post_of_item trivialEnv sampleRssItem ∈
      extract_from_rss trivialEnv (RssChannel.mk [sampleRssItem])) ∧
    ∃ item ∈ (RssChannel.mk [sampleRssItem]).items,
      (rss_post_of_item trivialEnv sampleRssItem).id =
        match item.guid with
        | some g => g
        | none =>
          Download.hash
            (trivialEnv.debugFormatId (rssPublishedOf trivialEnv item)
              (rssNameOf item)) :=
  ⟨by simp [extract_from_rss_eq_map],
   rss_extracted_id trivialEnv (RssChannel.mk [sampleRssItem]) _
     (by simp [extract_from_rss_eq_map])⟩

/-- C10: the public hash in src/lib.rs and the private hash in
src/download.rs are the same function: both compute the 64-bit FNV-1a
hash of the input bytes and render it in decimal, so they agree on every
input string. -/
theorem lib_hash_eq_download_hash : ∀ s : Str, Lib.hash s = Download.hash s :=
  fun _ => rfl

end Nia
